import Mathlib

/-!
# Verification of the pledger core (`src/pledger/mod.rs`)

A shallow embedding of the pledger ledger-entry parser, period resolver and
aggregation logic, together with theorems checking the natural-language
specification against it.

Conventions:
* Rust `u64` arithmetic is modelled on `Nat` with an explicit `% 2^64`
  at every operation that can overflow (release-mode wrapping semantics).
* Rust strings are modelled by Lean `String`; character positions follow
  `str::char_indices`, i.e. they advance by the UTF-8 byte length of each
  character (`Char.utf8Size`), so offsets in error messages are byte offsets.
* Fallible functions return `Except`; `parse_entry` returns
  `Except (Option String) Entry` mirroring the source's
  `Result<Entry, Option<String>>` (error `none` = "skip this line").
-/

namespace Pledger

/-- `2^64`, the modulus of Rust `u64` arithmetic. -/
def u64Size : Nat := 2 ^ 64

/-- Rust `char::is_ascii_whitespace`: space, tab, newline, form feed, CR. -/
def isAsciiWhitespace (c : Char) : Bool :=
  c.toNat == 32 || c.toNat == 9 || c.toNat == 10 || c.toNat == 12 || c.toNat == 13

/-- Rust `char::is_ascii_digit`: `'0'..='9'`. -/
def isAsciiDigit (c : Char) : Bool :=
  48 ≤ c.toNat && c.toNat ≤ 57

/-- Rust `char::is_ascii_graphic`: `'!'..='~'`. -/
def isAsciiGraphic (c : Char) : Bool :=
  33 ≤ c.toNat && c.toNat ≤ 126

/-- The Unicode `White_Space` class, which is what `\s` matches in the Rust
`regex` crate (Unicode mode, the default). -/
def isRegexWhitespace (c : Char) : Bool :=
  (9 ≤ c.toNat && c.toNat ≤ 13) || c.toNat == 32 || c.toNat == 0x85 ||
  c.toNat == 0xA0 || c.toNat == 0x1680 ||
  (0x2000 ≤ c.toNat && c.toNat ≤ 0x200A) ||
  c.toNat == 0x2028 || c.toNat == 0x2029 || c.toNat == 0x202F ||
  c.toNat == 0x205F || c.toNat == 0x3000

/-- The `LOOKS_LIKE_COMMENT` regex `^\s*#.*$`: optional whitespace, then `#`,
then any characters other than `'\n'` (the regex `.` does not match a newline,
and `$` anchors at the end of the haystack). -/
def looksLikeComment (l : List Char) : Bool :=
  match l.dropWhile isRegexWhitespace with
  | '#' :: rest => rest.all (fun c => c != '\n')
  | _ => false

/-- `EntryParseState` from the source: the parser's state labels. -/
inductive EntryParseState where
  | Whitespace
  | EntryKind
  | Amount
  | Comment
  | Tag
deriving DecidableEq, Repr

/-- `EntryKind` from the source: a two-valued tag. -/
inductive EntryKind where
  | Debit
  | Credit
deriving DecidableEq, Repr

/-- `Entry` from the source: one parsed ledger line. -/
structure Entry where
  kind : EntryKind
  amount : Nat
  comment : String
  tags : List String
deriving DecidableEq, Repr

/-- `Ledger` from the source: a date label plus the parsed entries. -/
structure Ledger where
  date : String
  entries : List Entry
deriving DecidableEq, Repr

/-- The mutable local state of `parse_entry`'s character loop. -/
structure PState where
  prev : EntryParseState
  cur : EntryParseState
  kind : EntryKind
  amount : Nat
  in_decimal_place : Bool
  decimal_place : Nat
  comment : String
  tags : List String
deriving DecidableEq, Repr

/-- The state of `parse_entry` just before its character loop. -/
def initPState : PState :=
  { prev := .EntryKind, cur := .EntryKind, kind := .Debit, amount := 0,
    in_decimal_place := false, decimal_place := 0, comment := "", tags := [] }

/-- Debug names of the parser states, as Rust's `{:?}` prints them
(used only in the unreachable-transition error message). -/
def stateName : EntryParseState → String
  | .Whitespace => "Whitespace"
  | .EntryKind => "EntryKind"
  | .Amount => "Amount"
  | .Comment => "Comment"
  | .Tag => "Tag"

/-- `tags.last_mut().unwrap().push(chr)`: append a character to the last tag.
The source unwraps; the empty case is unreachable because a tag is always
pushed before the machine enters the `Tag` state. -/
def pushLast : List String → Char → List String
  | [], _ => []
  | [t], c => [t.push c]
  | t :: ts, c => t :: pushLast ts c

/-- One iteration of `parse_entry`'s `for (idx, chr) in line.char_indices()`
loop: the `match (prev_state, cur_state)` transition table, verbatim. -/
def stepChar (idx : Nat) (chr : Char) (st : PState) : Except String PState :=
  match st.prev, st.cur with
  | .EntryKind, .EntryKind =>
    if chr = 'C' then .ok { st with kind := .Credit, cur := .Whitespace }
    else if chr = 'D' then .ok { st with kind := .Debit, cur := .Whitespace }
    else .error s!"offset {idx}: unexpected entry kind {chr}"
  | .EntryKind, .Whitespace =>
    if isAsciiWhitespace chr then
      .ok { st with prev := .Whitespace, cur := .Amount }
    else .error s!"offset {idx}: expected whitespace, got {chr}"
  | .Whitespace, .Amount =>
    if isAsciiDigit chr then
      .ok { st with amount := (st.amount * 10 + (chr.toNat - 48)) % u64Size,
                    prev := .Amount }
    else .error s!"offset {idx}: expected digit, got {chr}"
  | .Amount, .Amount =>
    if isAsciiDigit chr then
      let dp := if st.in_decimal_place then st.decimal_place + 1 else st.decimal_place
      if dp > 2 then .error s!"offset {idx}: more than two decimal places in value"
      else .ok { st with decimal_place := dp,
                         amount := (st.amount * 10 + (chr.toNat - 48)) % u64Size }
    else if chr = '.' then
      if st.in_decimal_place then
        .error s!"offset {idx}: more than one decimal supplied in value"
      else .ok { st with in_decimal_place := true }
    else if chr = ',' then .ok st
    else if isAsciiWhitespace chr then
      if st.in_decimal_place && st.decimal_place < 2 then
        .error s!"offset {idx}: one or more decimals missing from decimal place"
      else .ok { st with prev := .Comment, cur := .Comment }
    else .error s!"offset {idx}: expected digit or whitespace, got {chr}"
  | .Comment, .Comment =>
    if chr = '#' then
      .ok { st with tags := st.tags ++ ["#"], cur := .Tag,
                    comment := st.comment.push chr }
    else .ok { st with comment := st.comment.push chr }
  | .Comment, .Tag =>
    if isAsciiWhitespace chr then
      .error s!"offset {idx}: premature tag ending"
    else if isAsciiGraphic chr then
      .ok { st with comment := st.comment.push chr, tags := pushLast st.tags chr,
                    prev := .Tag }
    else .error s!"offset {idx}: invalid tag character: {chr}"
  | .Tag, .Tag =>
    if isAsciiWhitespace chr then
      .ok { st with comment := st.comment.push chr, prev := .Comment, cur := .Comment }
    else if isAsciiGraphic chr then
      .ok { st with comment := st.comment.push chr, tags := pushLast st.tags chr }
    else .error s!"offset {idx}: invalid tag character: {chr}"
  | p, c =>
    .error s!"unexpected parser state transition: {stateName p} => {stateName c}! probable bug."

/-- The character loop of `parse_entry`: run `stepChar` over the line,
advancing the byte offset by each character's UTF-8 size, stopping at the
first error. -/
def parseLoop : List Char → Nat → PState → Except String PState
  | [], _, st => .ok st
  | chr :: rest, idx, st =>
    match stepChar idx chr st with
    | .error e => .error e
    | .ok st' => parseLoop rest (idx + chr.utf8Size) st'

/-- Rust `Vec::dedup`: drop consecutive duplicate elements. -/
def dedupRun : List String → List String
  | [] => []
  | [a] => [a]
  | a :: b :: rest => if a = b then dedupRun (b :: rest) else a :: dedupRun (b :: rest)

/-- `parse_entry` from the source: pre-check for blank/comment lines, the
character loop, the `tags.sort_unstable(); tags.dedup()` post-processing
(`List.insertionSort` over the code-point order of the character data is
extensionally equal to `sort_unstable`'s byte-wise string order, since UTF-8
byte order agrees with code-point order),
and the final end-of-line state check. -/
def parse_entry (line : String) : Except (Option String) Entry :=
  if line.data.isEmpty || looksLikeComment line.data then .error none
  else
    match parseLoop line.data 0 initPState with
    | .error e => .error (some e)
    | .ok st =>
      let tags := dedupRun (List.insertionSort (fun a b => a.data ≤ b.data) st.tags)
      match st.prev, st.cur with
      | .Comment, .Comment => .ok ⟨st.kind, st.amount, st.comment, tags⟩
      | .Tag, .Tag => .ok ⟨st.kind, st.amount, st.comment, tags⟩
      | _, _ => .error (some "unexpected EOL; missing comment?")

/-- `Ledger::filter` from the source: retain the entries having at least one
tag among the supplied ones. -/
def Ledger.filter (tags : List String) (l : Ledger) : Ledger :=
  { l with entries := l.entries.filter (fun e => e.tags.any (fun t => tags.contains t)) }

/-- The `DATE_PATTERN` regex `^\d{4}-(0[1-9]|1[0-2])$` (`\d` modelled as an
ASCII digit; non-ASCII Unicode decimal digits are out of scope). -/
def datePattern (l : List Char) : Bool :=
  match l with
  | [a, b, c, d, h, m1, m2] =>
    isAsciiDigit a && isAsciiDigit b && isAsciiDigit c && isAsciiDigit d &&
    h == '-' &&
    ((m1 == '0' && 49 ≤ m2.toNat && m2.toNat ≤ 57) ||
     (m1 == '1' && 48 ≤ m2.toNat && m2.toNat ≤ 50))
  | _ => false

/-- `MONTH_MAP` from the source: the key/value pairs of the `phf_map!` of
lowercase month names and abbreviations. -/
def MONTH_MAP : List (String × Nat) :=
  [("jan", 1), ("january", 1), ("feb", 2), ("february", 2), ("mar", 3), ("march", 3),
   ("apr", 4), ("april", 4), ("may", 5), ("jun", 6), ("june", 6), ("jul", 7), ("july", 7),
   ("aug", 8), ("august", 8), ("sep", 9), ("september", 9), ("oct", 10), ("october", 10),
   ("nov", 11), ("november", 11), ("dec", 12), ("december", 12)]

/-- `MONTH_MAP.get(date)`: `phf` lookup is an exact (case-sensitive) match on
the key strings. -/
def monthMap (s : String) : Option Nat :=
  (MONTH_MAP.find? (fun kv => kv.1 == s)).map (fun kv => kv.2)

/-- The numeric value of an ASCII digit (`chr as u64 - '0' as u64`). -/
def digitVal (c : Char) : Nat := c.toNat - 48

/-- The integer denoted by a string of decimal digits. -/
def digitsVal (ds : List Char) : Nat :=
  ds.foldl (fun a c => a * 10 + digitVal c) 0

/-- Rust `str::parse::<u8>()`: an optional leading `'+'`, then one or more
ASCII digits, value at most `u8::MAX` (overflow is a parse error). -/
def parseU8 (l : List Char) : Option Nat :=
  let ds := match l with
    | '+' :: rest => rest
    | _ => l
  if ds.isEmpty || !ds.all isAsciiDigit then none
  else if digitsVal ds ≤ 255 then some (digitsVal ds) else none

/-- chrono's `%Y` year field: the year zero-padded to 4 digits (years outside
`0..=9999` are out of scope). -/
def formatYear (y : Nat) : String :=
  if y < 10 then "000" ++ toString y
  else if y < 100 then "00" ++ toString y
  else if y < 1000 then "0" ++ toString y
  else toString y

/-- Rust's `{:02}` format: zero-pad to 2 digits. -/
def pad2 (m : Nat) : String :=
  if m < 10 then "0" ++ toString m else toString m

/-- `parse_date` from the source. The ambient clock (`Utc::now().format("%Y")`)
is made explicit as the `year` parameter; `anyhow!` errors become `String`s. -/
def parse_date (year : Nat) (date : String) : Except String String :=
  if datePattern date.data then .ok date
  else
    match monthMap date with
    | some m => .ok (formatYear year ++ "-" ++ pad2 m)
    | none =>
      match parseU8 date.data with
      | some month =>
        if 1 ≤ month && month ≤ 12 then
          .ok (formatYear year ++ "-" ++ pad2 month)
        else .error ("month out of range: " ++ toString month)
      | none => .error ("failed to parse supplied date: " ++ date)

/-- The numeric results computed by `summarize` in the source (the function
itself only prints; this captures the values it computes and prints, except
the per-tag tables whose display order depends on `HashMap` iteration). -/
structure Summary where
  num_entries : Nat
  total_credits : Nat
  total_debits : Nat
  net : Nat
  net_kind : String
deriving DecidableEq, Repr

/-- `summarize` from the source: per-kind `fold`s of the amounts (`u64`
addition, hence `% 2^64`) and the net with its `"credit"`/`"debit"` label. -/
def summarize (ledger : Ledger) : Summary :=
  let num_entries := ledger.entries.length
  let total_credits :=
    (ledger.entries.filter (fun e => e.kind == .Credit)).foldl
      (fun acc e => (acc + e.amount) % u64Size) 0
  let total_debits :=
    (ledger.entries.filter (fun e => e.kind == .Debit)).foldl
      (fun acc e => (acc + e.amount) % u64Size) 0
  if total_credits ≥ total_debits then
    ⟨num_entries, total_credits, total_debits, total_credits - total_debits, "credit"⟩
  else
    ⟨num_entries, total_credits, total_debits, total_debits - total_credits, "debit"⟩

/-! ## Specification-side definitions

These follow the spec's words, for comparison with the embedded code. -/

/-- The digits of the amount field of a line, per the spec's words: the text
after the kind character and the single following whitespace, up to the
terminating whitespace, keeping only the decimal digits (dropping the decimal
point and any commas). -/
def amountField (l : List Char) : List Char :=
  ((l.drop 2).takeWhile (fun c => !isAsciiWhitespace c)).filter isAsciiDigit

/-- Spec-side total of the Credit entries' amounts. -/
def specCredits (l : Ledger) : Nat :=
  ((l.entries.filter (fun e => e.kind == .Credit)).map Entry.amount).sum

/-- Spec-side total of the Debit entries' amounts. -/
def specDebits (l : Ledger) : Nat :=
  ((l.entries.filter (fun e => e.kind == .Debit)).map Entry.amount).sum

/-! ## General lemmas -/

theorem data_push (s : String) (c : Char) : (s.push c).data = s.data ++ [c] := rfl

theorem infix_snoc {a l : List Char} (c : Char) (h : a <:+: l) : a <:+: l ++ [c] := by
  obtain ⟨s, t, ht⟩ := h
  exact ⟨s, t ++ [c], by rw [← ht]; simp⟩

theorem suffix_snoc {a l : List Char} (c : Char) (h : a <:+ l) : a ++ [c] <:+ l ++ [c] := by
  obtain ⟨s, hs⟩ := h
  exact ⟨s, by rw [← hs]; simp⟩

theorem pushLast_snoc (ts : List String) (t : String) (c : Char) :
    pushLast (ts ++ [t]) c = ts ++ [t.push c] := by
  induction ts with
  | nil => rfl
  | cons a as ih =>
    cases as with
    | nil => rfl
    | cons b bs => simpa [pushLast] using ih

theorem mem_dedupRun {x : String} : ∀ {l : List String}, x ∈ dedupRun l → x ∈ l
  | [], h => by simp [dedupRun] at h
  | [a], h => by simpa [dedupRun] using h
  | a :: b :: rest, h => by
    rw [dedupRun] at h
    split at h
    · exact List.mem_cons_of_mem a (mem_dedupRun h)
    · rcases List.mem_cons.mp h with rfl | h'
      · exact List.mem_cons_self x _
      · exact List.mem_cons_of_mem a (mem_dedupRun h')

instance : IsTotal String (fun a b : String => a.data ≤ b.data) :=
  ⟨fun a b => le_total a.data b.data⟩

instance : IsTrans String (fun a b : String => a.data ≤ b.data) :=
  ⟨fun _ _ _ => le_trans⟩

theorem dedupRun_pairwise : ∀ l : List String,
    l.Pairwise (fun a b : String => a.data ≤ b.data) →
    (dedupRun l).Pairwise (fun a b : String => a.data < b.data)
  | [], _ => by simp [dedupRun]
  | [a], _ => by simp [dedupRun]
  | a :: b :: rest, h => by
    have htail : (b :: rest).Pairwise (fun a b : String => a.data ≤ b.data) :=
      (List.pairwise_cons.mp h).2
    have hab : a.data ≤ b.data := (List.pairwise_cons.mp h).1 b (List.mem_cons_self b rest)
    rw [dedupRun]
    split
    · exact dedupRun_pairwise (b :: rest) htail
    · rename_i hne
      refine List.pairwise_cons.mpr ⟨?_, dedupRun_pairwise (b :: rest) htail⟩
      intro x hx
      have hxmem : x ∈ b :: rest := mem_dedupRun hx
      have hbx : b.data ≤ x.data := by
        rcases List.mem_cons.mp hxmem with rfl | hx'
        · exact le_refl x.data
        · exact (List.pairwise_cons.mp htail).1 x hx'
      have hne' : a.data ≠ b.data := by
        intro hd
        exact hne (by cases a; cases b; exact congrArg String.mk hd)
      exact lt_of_lt_of_le (lt_of_le_of_ne hab hne') hbx

theorem mem_sortDedup {x : String} {l : List String}
    (h : x ∈ dedupRun (List.insertionSort (fun a b => a.data ≤ b.data) l)) : x ∈ l :=
  (List.perm_insertionSort (fun a b : String => a.data ≤ b.data) l).mem_iff.mp
    (mem_dedupRun h)

theorem sortDedup_pairwise (l : List String) :
    (dedupRun (List.insertionSort (fun a b => a.data ≤ b.data) l)).Pairwise
      (fun a b : String => a.data < b.data) :=
  dedupRun_pairwise _ (List.sorted_insertionSort (fun a b : String => a.data ≤ b.data) l)

/-! ## The tag/comment invariant of the parser loop -/

/-- Invariant of the character loop: every collected tag is an infix of the
comment collected so far, and while the machine is in the `Tag` state the
tag being collected is a suffix of the comment (so that appending one
character to both preserves the infix property). -/
def TagInv (st : PState) : Prop :=
  (∀ t ∈ st.tags, t.data <:+: st.comment.data) ∧
  (st.cur = .Tag → ∃ ts t, st.tags = ts ++ [t] ∧ t.data <:+ st.comment.data)

theorem stepChar_taginv {idx : Nat} {chr : Char} {st st' : PState}
    (h : stepChar idx chr st = .ok st') (hinv : TagInv st) : TagInv st' := by
  obtain ⟨hmem, htag⟩ := hinv
  obtain ⟨prev, cur, kind, amount, idp, dp, comment, tags⟩ := st
  simp only at hmem htag
  cases prev <;> cases cur <;> simp only [stepChar] at h
  all_goals first
    | exact Except.noConfusion h
    | skip
  case EntryKind.EntryKind =>
    split_ifs at h <;> (obtain rfl := Except.ok.inj h; exact ⟨hmem, by intro h'; cases h'⟩)
  case EntryKind.Whitespace =>
    split_ifs at h
    obtain rfl := Except.ok.inj h
    exact ⟨hmem, by intro h'; cases h'⟩
  case Whitespace.Amount =>
    split_ifs at h
    obtain rfl := Except.ok.inj h
    exact ⟨hmem, by intro h'; cases h'⟩
  case Amount.Amount =>
    split_ifs at h <;> (obtain rfl := Except.ok.inj h; exact ⟨hmem, by intro h'; cases h'⟩)
  case Comment.Comment =>
    split_ifs at h with h1
    · obtain rfl := Except.ok.inj h
      subst h1
      refine ⟨?_, ?_⟩
      · intro t ht
        rcases List.mem_append.mp ht with ht' | ht'
        · exact infix_snoc '#' (hmem t ht')
        · rcases List.mem_singleton.mp ht' with rfl
          exact ⟨comment.data, [], by simp [data_push]⟩
      · intro _
        exact ⟨tags, "#", rfl, ⟨comment.data, by simp [data_push]⟩⟩
    · obtain rfl := Except.ok.inj h
      exact ⟨fun t ht => infix_snoc chr (hmem t ht), by intro h'; cases h'⟩
  case Comment.Tag =>
    split_ifs at h with h1 h2
    · obtain rfl := Except.ok.inj h
      obtain ⟨ts, t, htags, hsuf⟩ := htag rfl
      subst htags
      refine ⟨?_, ?_⟩
      · intro x hx
        rw [pushLast_snoc] at hx
        rcases List.mem_append.mp hx with hx' | hx'
        · exact infix_snoc chr (hmem x (List.mem_append.mpr (Or.inl hx')))
        · rcases List.mem_singleton.mp hx' with rfl
          rw [data_push, data_push]
          exact (suffix_snoc chr hsuf).isInfix
      · intro _
        refine ⟨ts, t.push chr, by rw [pushLast_snoc], ?_⟩
        rw [data_push, data_push]
        exact suffix_snoc chr hsuf
  case Tag.Tag =>
    split_ifs at h with h1 h2
    · obtain rfl := Except.ok.inj h
      exact ⟨fun t ht => infix_snoc chr (hmem t ht), by intro h'; cases h'⟩
    · obtain rfl := Except.ok.inj h
      obtain ⟨ts, t, htags, hsuf⟩ := htag rfl
      subst htags
      refine ⟨?_, ?_⟩
      · intro x hx
        rw [pushLast_snoc] at hx
        rcases List.mem_append.mp hx with hx' | hx'
        · exact infix_snoc chr (hmem x (List.mem_append.mpr (Or.inl hx')))
        · rcases List.mem_singleton.mp hx' with rfl
          rw [data_push, data_push]
          exact (suffix_snoc chr hsuf).isInfix
      · intro _
        refine ⟨ts, t.push chr, by rw [pushLast_snoc], ?_⟩
        rw [data_push, data_push]
        exact suffix_snoc chr hsuf

/-- `TagInv` is preserved by the whole character loop. -/
theorem parseLoop_taginv : ∀ (cs : List Char) (idx : Nat) (st st' : PState),
    parseLoop cs idx st = .ok st' → TagInv st → TagInv st'
  | [], _, st, st', h, hinv => by
    rw [parseLoop] at h
    obtain rfl := Except.ok.inj h
    exact hinv
  | c :: rest, idx, st, st', h, hinv => by
    rw [parseLoop] at h
    cases hstep : stepChar idx c st with
    | error e => rw [hstep] at h; exact Except.noConfusion h
    | ok st₁ =>
      rw [hstep] at h
      exact parseLoop_taginv rest (idx + c.utf8Size) st₁ st' h (stepChar_taginv hstep hinv)

/-- Inversion of `parse_entry`: a successful parse comes from a successful
loop run ending in an accepting state pair, and the entry is assembled from
the final loop state. -/
theorem parse_entry_ok_inv {line : String} {e : Entry} (h : parse_entry line = .ok e) :
    ∃ st : PState, parseLoop line.data 0 initPState = .ok st ∧
      ((st.prev = .Comment ∧ st.cur = .Comment) ∨ (st.prev = .Tag ∧ st.cur = .Tag)) ∧
      e = ⟨st.kind, st.amount, st.comment,
        dedupRun (List.insertionSort (fun a b => a.data ≤ b.data) st.tags)⟩ := by
  unfold parse_entry at h
  split at h
  · exact Except.noConfusion h
  · split at h
    · exact Except.noConfusion h
    · rename_i st heq
      refine ⟨st, heq, ?_⟩
      split at h
      · rename_i hp hc
        exact ⟨Or.inl ⟨hp, hc⟩, (Except.ok.inj h).symm⟩
      · rename_i hp hc
        exact ⟨Or.inr ⟨hp, hc⟩, (Except.ok.inj h).symm⟩
      · exact Except.noConfusion h

/-! ## The amount computation of the parser loop -/

theorem not_ws_of_digit {c : Char} (h : isAsciiDigit c = true) :
    isAsciiWhitespace c = false := by
  simp only [isAsciiDigit, Bool.and_eq_true, decide_eq_true_eq] at h
  obtain ⟨h1, h2⟩ := h
  simp only [isAsciiWhitespace, Bool.or_eq_false_iff, beq_eq_false_iff_ne, ne_eq]
  omega

/-- The comment/tag phase of the machine: the state pairs from which the
amount can no longer change. -/
def InComment (st : PState) : Prop :=
  (st.prev = .Comment ∧ st.cur = .Comment) ∨ (st.prev = .Comment ∧ st.cur = .Tag) ∨
  (st.prev = .Tag ∧ st.cur = .Tag)

theorem stepChar_comment_amount {idx : Nat} {chr : Char} {st st' : PState}
    (h : stepChar idx chr st = .ok st') (hc : InComment st) :
    st'.amount = st.amount ∧ InComment st' := by
  obtain ⟨prev, cur, kind, amount, idp, dp, comment, tags⟩ := st
  simp only [InComment] at hc ⊢
  rcases hc with ⟨h1, h2⟩ | ⟨h1, h2⟩ | ⟨h1, h2⟩ <;> subst h1 <;> subst h2
  · simp only [stepChar] at h
    split_ifs at h <;> (obtain rfl := Except.ok.inj h; simp)
  · simp only [stepChar] at h
    split_ifs at h
    obtain rfl := Except.ok.inj h
    simp
  · simp only [stepChar] at h
    split_ifs at h <;> (obtain rfl := Except.ok.inj h; simp)

theorem parseLoop_comment_amount : ∀ (cs : List Char) (idx : Nat) (st st' : PState),
    parseLoop cs idx st = .ok st' → InComment st → st'.amount = st.amount
  | [], _, st, st', h, _ => by
    rw [parseLoop] at h
    obtain rfl := Except.ok.inj h
    rfl
  | c :: rest, idx, st, st', h, hc => by
    rw [parseLoop] at h
    split at h
    · exact Except.noConfusion h
    · rename_i st₁ hstep
      obtain ⟨ha, hc'⟩ := stepChar_comment_amount hstep hc
      rw [parseLoop_comment_amount rest _ st₁ st' h hc', ha]

/-- Through the `Amount` phase, the machine folds exactly the digits of the
amount field (the characters before the terminating whitespace, commas and
the decimal point skipped) into the accumulator, modulo `2^64`. -/
theorem parseLoop_amount_phase : ∀ (cs : List Char) (idx : Nat) (st st' : PState),
    st.prev = .Amount → st.cur = .Amount →
    parseLoop cs idx st = .ok st' →
    st'.amount = ((cs.takeWhile (fun c => !isAsciiWhitespace c)).filter isAsciiDigit).foldl
      (fun x c => (x * 10 + digitVal c) % u64Size) st.amount
  | [], _, st, st', _, _, h => by
    rw [parseLoop] at h
    obtain rfl := Except.ok.inj h
    rfl
  | c :: rest, idx, st, st', hprev, hcur, h => by
    rw [parseLoop] at h
    split at h
    · exact Except.noConfusion h
    · rename_i st₁ hstep
      obtain ⟨prev, cur, kind, amount, idp, dp, comment, tags⟩ := st
      simp only at hprev hcur
      subst hprev; subst hcur
      simp only [stepChar] at hstep
      split_ifs at hstep <;> obtain rfl := Except.ok.inj hstep <;>
        first
        | -- digit: kept by `takeWhile` and by `filter`, folded into the amount
          (have hd := ‹isAsciiDigit c = true›
           rw [List.takeWhile_cons, not_ws_of_digit hd]
           simp only [Bool.not_false, if_true, List.filter_cons, hd, List.foldl_cons]
           exact parseLoop_amount_phase rest _ _ st' rfl rfl h)
        | -- decimal point: kept by `takeWhile`, dropped by `filter`
          (have hdot := ‹c = '.'›
           subst hdot
           rw [List.takeWhile_cons]
           simp only [show isAsciiWhitespace '.' = false from rfl, Bool.not_false, if_true,
             List.filter_cons, show isAsciiDigit '.' = false from rfl,
             Bool.false_eq_true, if_false]
           exact parseLoop_amount_phase rest _ _ st' rfl rfl h)
        | -- comma: kept by `takeWhile`, dropped by `filter`
          (have hcomma := ‹c = ','›
           subst hcomma
           rw [List.takeWhile_cons]
           simp only [show isAsciiWhitespace ',' = false from rfl, Bool.not_false, if_true,
             List.filter_cons, show isAsciiDigit ',' = false from rfl,
             Bool.false_eq_true, if_false]
           exact parseLoop_amount_phase rest _ _ st' rfl rfl h)
        | -- terminating whitespace: the field ends, the amount is frozen
          (have hws := ‹isAsciiWhitespace c = true›
           rw [List.takeWhile_cons]
           simp only [hws, Bool.not_true, Bool.false_eq_true, if_false, List.filter_nil,
             List.foldl_nil]
           exact parseLoop_comment_amount rest _ _ st' h (Or.inl ⟨rfl, rfl⟩))

theorem foldl_digits_le (ds : List Char) (a : Nat) :
    a ≤ ds.foldl (fun x c => x * 10 + digitVal c) a := by
  induction ds generalizing a with
  | nil => exact le_refl a
  | cons c cs ih =>
    rw [List.foldl_cons]
    exact le_trans (by omega) (ih (a * 10 + digitVal c))

theorem foldl_mod_eq (ds : List Char) (a : Nat)
    (hb : ds.foldl (fun x c => x * 10 + digitVal c) a < u64Size) :
    ds.foldl (fun x c => (x * 10 + digitVal c) % u64Size) a
      = ds.foldl (fun x c => x * 10 + digitVal c) a := by
  induction ds generalizing a with
  | nil => rfl
  | cons c cs ih =>
    rw [List.foldl_cons] at hb ⊢
    have hstep : a * 10 + digitVal c < u64Size :=
      lt_of_le_of_lt (foldl_digits_le cs (a * 10 + digitVal c)) hb
    rw [Nat.mod_eq_of_lt hstep, List.foldl_cons]
    exact ih _ hb

/-- From the state just after the kind character (expecting whitespace, amount
still `0`), a successful accepted run forces the shape
`whitespace :: digit :: rest` and determines the final amount. -/
theorem parseLoop_after_kind : ∀ (t1 : List Char) (idx : Nat) (st₁ st : PState),
    st₁.prev = .EntryKind → st₁.cur = .Whitespace → st₁.amount = 0 →
    parseLoop t1 idx st₁ = .ok st →
    ((st.prev = .Comment ∧ st.cur = .Comment) ∨ (st.prev = .Tag ∧ st.cur = .Tag)) →
    ∃ w d t3, t1 = w :: d :: t3 ∧ isAsciiWhitespace w = true ∧ isAsciiDigit d = true ∧
      st.amount = ((t3.takeWhile (fun c => !isAsciiWhitespace c)).filter isAsciiDigit).foldl
        (fun x c => (x * 10 + digitVal c) % u64Size) (digitVal d)
  | [], _, st₁, st, hprev, hcur, _, hloop, hacc => by
    rw [parseLoop] at hloop
    obtain rfl := Except.ok.inj hloop
    rcases hacc with ⟨_, h2⟩ | ⟨_, h2⟩ <;> (rw [hcur] at h2; cases h2)
  | w :: t2, idx, st₁, st, hprev, hcur, ha, hloop, hacc => by
    rw [parseLoop] at hloop
    split at hloop
    · exact Except.noConfusion hloop
    · rename_i st₂ hstep
      obtain ⟨prev, cur, kind, amount, idp, dp, comment, tags⟩ := st₁
      simp only at hprev hcur ha
      subst hprev; subst hcur; subst ha
      simp only [stepChar] at hstep
      split_ifs at hstep with hw
      obtain rfl := Except.ok.inj hstep
      cases t2 with
      | nil =>
        rw [parseLoop] at hloop
        obtain rfl := Except.ok.inj hloop
        rcases hacc with ⟨_, h2⟩ | ⟨_, h2⟩ <;> cases h2
      | cons d t3 =>
        rw [parseLoop] at hloop
        split at hloop
        · exact Except.noConfusion hloop
        · rename_i st₃ hstep2
          simp only [stepChar] at hstep2
          split_ifs at hstep2 with hd
          obtain rfl := Except.ok.inj hstep2
          refine ⟨w, d, t3, rfl, hw, hd, ?_⟩
          have hamt := parseLoop_amount_phase t3 _ _ st rfl rfl hloop
          simp only at hamt
          rw [hamt]
          have hdv : (0 * 10 + (d.toNat - 48)) % u64Size = digitVal d := by
            have : d.toNat - 48 < u64Size := by
              simp only [isAsciiDigit, Bool.and_eq_true, decide_eq_true_eq] at hd
              have : (2 : Nat) ^ 64 = 18446744073709551616 := by norm_num
              simp only [u64Size, this]
              omega
            simp [digitVal, Nat.mod_eq_of_lt this]
          rw [hdv]

/-- Any accepted line computes its amount as the mod-`2^64` digit fold of the
amount field. -/
theorem parse_entry_amount_eq (line : String) (e : Entry)
    (h : parse_entry line = .ok e)
    (hb : digitsVal (amountField line.data) < u64Size) :
    e.amount = digitsVal (amountField line.data) := by
  obtain ⟨st, hloop, hacc, he⟩ := parse_entry_ok_inv h
  have heamt : e.amount = st.amount := by rw [he]
  cases hdata : line.data with
  | nil =>
    rw [hdata, parseLoop] at hloop
    obtain rfl := Except.ok.inj hloop
    rcases hacc with ⟨h1, _⟩ | ⟨h1, _⟩ <;> cases h1
  | cons k t1 =>
    rw [hdata, parseLoop] at hloop
    split at hloop
    · exact Except.noConfusion hloop
    · rename_i st₁ hstep
      simp only [stepChar, initPState] at hstep
      split_ifs at hstep <;>
        (obtain rfl := Except.ok.inj hstep
         obtain ⟨w, d, t3, ht1, hw, hd, hamt⟩ :=
           parseLoop_after_kind t1 _ _ st rfl rfl rfl hloop hacc
         subst ht1
         have hAF : amountField (k :: w :: d :: t3)
             = d :: ((t3.takeWhile (fun c => !isAsciiWhitespace c)).filter isAsciiDigit) := by
           simp only [amountField, show (k :: w :: d :: t3).drop 2 = d :: t3 from rfl,
             List.takeWhile_cons, not_ws_of_digit hd, Bool.not_false, if_true,
             List.filter_cons, hd]
         have hDV : digitsVal (amountField (k :: w :: d :: t3))
             = ((t3.takeWhile (fun c => !isAsciiWhitespace c)).filter isAsciiDigit).foldl
                 (fun x c => x * 10 + digitVal c) (digitVal d) := by
           rw [hAF]
           simp only [digitsVal, List.foldl_cons, Nat.zero_mul, Nat.zero_add]
         rw [heamt, hamt, hDV]
         exact foldl_mod_eq _ _ (hDV ▸ (hdata ▸ hb)))

/-- Any accepted line yields strictly sorted, deduplicated tags, each an
infix of the comment. -/
theorem parse_entry_tags_ok (line : String) (e : Entry)
    (h : parse_entry line = .ok e) :
    e.tags.Pairwise (fun a b : String => a.data < b.data) ∧
      ∀ t ∈ e.tags, t.data <:+: e.comment.data := by
  obtain ⟨st, hloop, _, he⟩ := parse_entry_ok_inv h
  have hinit : TagInv initPState := by
    unfold TagInv initPState
    simp
  obtain ⟨hmem, _⟩ := parseLoop_taginv _ _ _ _ hloop hinit
  subst he
  exact ⟨sortDedup_pairwise st.tags, fun t ht => hmem t (mem_sortDedup ht)⟩

/-! ## Period-resolver lemmas -/

/-- No month-map key matches the canonical `YYYY-MM` pattern. -/
theorem monthMap_not_canonical {tok : String} {m : Nat} (h : monthMap tok = some m) :
    datePattern tok.data = false := by
  unfold monthMap at h
  rw [Option.map_eq_some'] at h
  obtain ⟨kv, hfind, _⟩ := h
  have hmem := List.mem_of_find?_eq_some hfind
  have hp := List.find?_some hfind
  have hkey : kv.1 = tok := eq_of_beq (by simpa using hp)
  subst hkey
  fin_cases hmem <;> decide

/-! ## Aggregator lemmas -/

/-- A mod-`2^64` additive fold equals the plain sum while the sum fits. -/
theorem foldl_mod_add (l : List Entry) (a : Nat)
    (h : a + (l.map Entry.amount).sum < u64Size) :
    l.foldl (fun acc e => (acc + e.amount) % u64Size) a = a + (l.map Entry.amount).sum := by
  induction l generalizing a with
  | nil => simp
  | cons x xs ih =>
    simp only [List.map_cons, List.sum_cons] at h
    have hx : a + x.amount < u64Size := by omega
    rw [List.foldl_cons, Nat.mod_eq_of_lt hx, ih _ (by omega)]
    simp only [List.map_cons, List.sum_cons]
    omega

theorem summarize_total_credits (L : Ledger) (hc : specCredits L < u64Size) :
    (summarize L).total_credits = specCredits L := by
  have h := foldl_mod_add (L.entries.filter (fun e => e.kind == .Credit)) 0
    (by simpa [specCredits] using hc)
  simp only [summarize]
  split_ifs <;> simpa [specCredits] using h

theorem summarize_total_debits (L : Ledger) (hd : specDebits L < u64Size) :
    (summarize L).total_debits = specDebits L := by
  have h := foldl_mod_add (L.entries.filter (fun e => e.kind == .Debit)) 0
    (by simpa [specDebits] using hd)
  simp only [summarize]
  split_ifs <;> simpa [specDebits] using h

/-- Full characterization of `summarize` while the per-kind sums fit in
`u64`. -/
theorem summarize_fields (L : Ledger) (hc : specCredits L < u64Size)
    (hd : specDebits L < u64Size) :
    summarize L = ⟨L.entries.length, specCredits L, specDebits L,
      ((specCredits L : Int) - (specDebits L : Int)).natAbs,
      if specDebits L ≤ specCredits L then "credit" else "debit"⟩ := by
  have hcf := foldl_mod_add (L.entries.filter (fun e => e.kind == .Credit)) 0
    (by simpa [specCredits] using hc)
  have hdf := foldl_mod_add (L.entries.filter (fun e => e.kind == .Debit)) 0
    (by simpa [specDebits] using hd)
  rw [Nat.zero_add] at hcf hdf
  simp only [summarize]
  rw [hcf, hdf]
  have hce : ((L.entries.filter (fun e => e.kind == .Credit)).map Entry.amount).sum
      = specCredits L := rfl
  have hde : ((L.entries.filter (fun e => e.kind == .Debit)).map Entry.amount).sum
      = specDebits L := rfl
  rw [hce, hde]
  split_ifs with hge
  · rw [show specCredits L - specDebits L
        = ((specCredits L : Int) - (specDebits L : Int)).natAbs by omega]
  · rw [show specDebits L - specCredits L
        = ((specCredits L : Int) - (specDebits L : Int)).natAbs by omega]

/-! ## Claims -/

/-- C1: For every valid entry line, the parsed amount is the decimal digits of
the amount field concatenated, with the decimal point and any commas removed
and no scale factor applied (stated for values that fit in `u64`):
`"C 1.00 test"` yields amount `100`, `"D 100.00 test"` yields `10000`, and
`"C 100 test"` yields `100`. -/
theorem amount_is_concatenated_digits :
    (∀ (line : String) (e : Entry), parse_entry line = .ok e →
      digitsVal (amountField line.data) < u64Size →
      e.amount = digitsVal (amountField line.data)) ∧
    parse_entry "C 1.00 test" = .ok ⟨.Credit, 100, "test", []⟩ ∧
    parse_entry "D 100.00 test" = .ok ⟨.Debit, 10000, "test", []⟩ ∧
    parse_entry "C 100 test" = .ok ⟨.Credit, 100, "test", []⟩ :=
  ⟨parse_entry_amount_eq, rfl, rfl, rfl⟩

/-- Witness for C1: the universal part evaluated at a concrete line. -/
theorem amount_is_concatenated_digits_witness :
    parse_entry "D 2,000.50 lunch" = .ok ⟨.Debit, 200050, "lunch", []⟩ ∧
    (⟨.Debit, 200050, "lunch", []⟩ : Entry).amount
      = digitsVal (amountField ("D 2,000.50 lunch" : String).data) :=
  ⟨rfl, amount_is_concatenated_digits.1 "D 2,000.50 lunch" ⟨.Debit, 200050, "lunch", []⟩ rfl
    (by decide)⟩

/-- C2: `parse_entry` rejects exactly at the stated positions: `"D1.00"` at
offset 1 (missing whitespace), `"D 1.00foo"` at offset 6, `"D 1.000"` at
offset 6 (too many decimal places), `"D 1.0.0"` at offset 5 (second decimal
point), `"D 1"` with the missing-comment error, and `"D 1 # bar"` at offset 5
(premature tag end). -/
theorem rejects_at_exact_offsets :
    parse_entry "D1.00" = .error (some "offset 1: expected whitespace, got 1") ∧
    parse_entry "D 1.00foo" = .error (some "offset 6: expected digit or whitespace, got f") ∧
    parse_entry "D 1.000" = .error (some "offset 6: more than two decimal places in value") ∧
    parse_entry "D 1.0.0" = .error (some "offset 5: more than one decimal supplied in value") ∧
    parse_entry "D 1" = .error (some "unexpected EOL; missing comment?") ∧
    parse_entry "D 1 # bar" = .error (some "offset 5: premature tag ending") :=
  ⟨rfl, rfl, rfl, rfl, rfl, rfl⟩

/-- C3: For every line `parse_entry` accepts, the tags list is strictly
sorted (lexicographically ascending, hence duplicate-free), and every tag is
a substring (infix) of the comment. -/
theorem tags_sorted_dedup_substring : ∀ (line : String) (e : Entry),
    parse_entry line = .ok e →
    e.tags.Pairwise (fun a b : String => a.data < b.data) ∧
      ∀ t ∈ e.tags, t.data <:+: e.comment.data :=
  parse_entry_tags_ok

/-- Witness for C3 at a concrete line with unsorted duplicate tags. -/
theorem tags_sorted_dedup_substring_witness :
    parse_entry "C 1.00 foo #b #a #b" = .ok ⟨.Credit, 100, "foo #b #a #b", ["#a", "#b"]⟩ ∧
    ((["#a", "#b"] : List String).Pairwise (fun a b : String => a.data < b.data) ∧
      ∀ t ∈ (["#a", "#b"] : List String), t.data <:+: ("foo #b #a #b" : String).data) :=
  ⟨by rfl, tags_sorted_dedup_substring "C 1.00 foo #b #a #b"
    ⟨.Credit, 100, "foo #b #a #b", ["#a", "#b"]⟩ (by rfl)⟩

/-- C4: `Ledger::filter` retains exactly the entries whose tag list meets the
supplied set (so tagless entries are always removed), keeps the original
relative order (sublist), and never increases the entry count. -/
theorem filter_retains_exactly_intersection (L : Ledger) (T : List String) :
    (Ledger.filter T L).entries
      = L.entries.filter (fun e => decide (∃ t ∈ e.tags, t ∈ T)) ∧
    List.Sublist (Ledger.filter T L).entries L.entries ∧
    (Ledger.filter T L).entries.length ≤ L.entries.length ∧
    ∀ e ∈ (Ledger.filter T L).entries, (∃ t ∈ e.tags, t ∈ T) ∧ e.tags ≠ [] := by
  have hpred : ∀ e : Entry,
      (e.tags.any fun t => T.contains t) = decide (∃ t ∈ e.tags, t ∈ T) := by
    intro e
    rw [Bool.eq_iff_iff]
    simp
  refine ⟨?_, ?_, ?_, ?_⟩
  · simp only [Ledger.filter]
    exact List.filter_congr (fun e _ => hpred e)
  · simp only [Ledger.filter]
    exact List.filter_sublist _
  · simp only [Ledger.filter]
    exact List.length_filter_le _ _
  · intro e he
    simp only [Ledger.filter, List.mem_filter] at he
    obtain ⟨_, hany⟩ := he
    rw [hpred e] at hany
    have hex := of_decide_eq_true hany
    refine ⟨hex, ?_⟩
    obtain ⟨t, ht, _⟩ := hex
    intro hnil
    rw [hnil] at ht
    exact List.not_mem_nil t ht

/-- Witness for C4 at a concrete two-entry ledger and one-tag filter. -/
theorem filter_retains_exactly_intersection_witness :
    (Ledger.filter ["#foo"] ⟨"1970-01", [⟨.Credit, 100, "#foo", ["#foo"]⟩,
        ⟨.Debit, 100, "#bar", ["#bar"]⟩]⟩).entries.length
      ≤ (Ledger.mk "1970-01" [⟨.Credit, 100, "#foo", ["#foo"]⟩,
        ⟨.Debit, 100, "#bar", ["#bar"]⟩]).entries.length ∧
    (Ledger.filter ["#foo"] ⟨"1970-01", [⟨.Credit, 100, "#foo", ["#foo"]⟩,
        ⟨.Debit, 100, "#bar", ["#bar"]⟩]⟩).entries
      = (Ledger.mk "1970-01" [⟨.Credit, 100, "#foo", ["#foo"]⟩,
        ⟨.Debit, 100, "#bar", ["#bar"]⟩]).entries.filter
          (fun e => decide (∃ t ∈ e.tags, t ∈ ["#foo"])) :=
  ⟨(filter_retains_exactly_intersection ⟨"1970-01", [⟨.Credit, 100, "#foo", ["#foo"]⟩,
      ⟨.Debit, 100, "#bar", ["#bar"]⟩]⟩ ["#foo"]).2.2.1,
   (filter_retains_exactly_intersection ⟨"1970-01", [⟨.Credit, 100, "#foo", ["#foo"]⟩,
      ⟨.Debit, 100, "#bar", ["#bar"]⟩]⟩ ["#foo"]).1⟩

/-- C5 counterexample: the month-name lookup is case-sensitive, so `"JAN"` is
not resolved to a period at all — it fails with the unparsable-date error,
refuting the claimed case-insensitive matching. -/
theorem month_name_case_sensitive_cex :
    parse_date 2026 "JAN" = .error "failed to parse supplied date: JAN" ∧
    parse_date 2026 "JAN" ≠ .ok "2026-01" := by
  refine ⟨rfl, ?_⟩
  intro hcontra
  rw [show parse_date 2026 "JAN" = .error "failed to parse supplied date: JAN" from rfl]
    at hcontra
  exact Except.noConfusion hcontra

/-- C5 amended: only a token exactly equal to one of the lowercase month-map
keys resolves to `"{current-year}-{month:02}"`; the match is case-sensitive
(exact `phf` key lookup), not case-insensitive. -/
theorem month_name_exact_lowercase (y : Nat) (tok : String) (m : Nat)
    (h : monthMap tok = some m) :
    parse_date y tok = .ok (formatYear y ++ "-" ++ pad2 m) := by
  unfold parse_date
  rw [monthMap_not_canonical h]
  simp [h]

/-- Witness for C5 (amended) at `"jan"` and year 2026. -/
theorem month_name_exact_lowercase_witness :
    monthMap "jan" = some 1 ∧
    parse_date 2026 "jan" = .ok (formatYear 2026 ++ "-" ++ pad2 1) :=
  ⟨rfl, month_name_exact_lowercase 2026 "jan" 1 rfl⟩

/-- C6 counterexample: `"300"` overflows the `u8` parse, so `parse_date`
reports the unparsable-date error, not the claimed month-out-of-range
error. -/
theorem month_out_of_range_overflow_cex :
    parse_date 2026 "300" = .error "failed to parse supplied date: 300" ∧
    parse_date 2026 "300" ≠ .error ("month out of range: " ++ toString 300) := by
  refine ⟨rfl, ?_⟩
  intro hcontra
  rw [show parse_date 2026 "300" = .error "failed to parse supplied date: 300" from rfl]
    at hcontra
  exact absurd (Except.error.inj hcontra) (by decide)

/-- C6 amended: for a token that is neither a canonical period nor a month
name, if it parses as a `u8` (optional `'+'`, digits, value at most 255) with
value outside `1..=12` then `parse_date` fails with the month-out-of-range
error carrying the value; any other token — including numerals above 255,
which overflow the `u8` parse — fails with the unparsable-date error carrying
the token. -/
theorem month_number_error_taxonomy :
    (∀ (y : Nat) (tok : String) (m : Nat),
      datePattern tok.data = false → monthMap tok = none →
      parseU8 tok.data = some m → ¬(1 ≤ m ∧ m ≤ 12) →
      parse_date y tok = .error ("month out of range: " ++ toString m)) ∧
    (∀ (y : Nat) (tok : String),
      datePattern tok.data = false → monthMap tok = none → parseU8 tok.data = none →
      parse_date y tok = .error ("failed to parse supplied date: " ++ tok)) := by
  constructor
  · intro y tok m hpat hmap hu8 hm
    simp only [parse_date, hpat, Bool.false_eq_true, if_false, hmap, hu8]
    rw [if_neg (by simp only [Bool.and_eq_true, decide_eq_true_eq]; exact hm)]
  · intro y tok hpat hmap hu8
    simp only [parse_date, hpat, Bool.false_eq_true, if_false, hmap, hu8]

/-- Witness for C6 (amended) at `"13"` and `"foo"`. -/
theorem month_number_error_taxonomy_witness :
    parse_date 2026 "13" = .error ("month out of range: " ++ toString 13) ∧
    parse_date 2026 "foo" = .error ("failed to parse supplied date: " ++ "foo") :=
  ⟨month_number_error_taxonomy.1 2026 "13" 13 (by decide) (by decide) (by decide) (by decide),
   month_number_error_taxonomy.2 2026 "foo" (by decide) (by decide) (by decide)⟩

/-- C7: `summarize` computes `total_credits` and `total_debits` as the
per-kind sums of amounts, `net` as the absolute difference, labeled
`"credit"` when credits are at least debits and `"debit"` otherwise; for the
ledger `[C 100 #x, D 50 #x, C 20 #y]` this yields credits 120, debits 50 and
net 70 labeled `"credit"`. -/
theorem summarize_totals_net (L : Ledger) (e1 e2 e3 : Entry)
    (hc : specCredits L < u64Size) (hd : specDebits L < u64Size)
    (h1 : parse_entry "C 100 #x" = .ok e1) (h2 : parse_entry "D 50 #x" = .ok e2)
    (h3 : parse_entry "C 20 #y" = .ok e3) :
    (summarize L).total_credits = specCredits L ∧
    (summarize L).total_debits = specDebits L ∧
    (summarize L).net = ((specCredits L : Int) - (specDebits L : Int)).natAbs ∧
    (summarize L).net_kind
      = (if specDebits L ≤ specCredits L then "credit" else "debit") ∧
    summarize ⟨L.date, [e1, e2, e3]⟩ = ⟨3, 120, 50, 70, "credit"⟩ := by
  have hfields := summarize_fields L hc hd
  rw [show parse_entry "C 100 #x" = .ok (⟨.Credit, 100, "#x", ["#x"]⟩ : Entry) from rfl] at h1
  rw [show parse_entry "D 50 #x" = .ok (⟨.Debit, 50, "#x", ["#x"]⟩ : Entry) from rfl] at h2
  rw [show parse_entry "C 20 #y" = .ok (⟨.Credit, 20, "#y", ["#y"]⟩ : Entry) from rfl] at h3
  obtain rfl := Except.ok.inj h1
  obtain rfl := Except.ok.inj h2
  obtain rfl := Except.ok.inj h3
  exact ⟨by rw [hfields], by rw [hfields], by rw [hfields], by rw [hfields], rfl⟩

/-- Witness for C7 at the concrete three-entry ledger. -/
theorem summarize_totals_net_witness :
    (summarize ⟨"2020-01", [⟨.Credit, 100, "#x", ["#x"]⟩, ⟨.Debit, 50, "#x", ["#x"]⟩,
        ⟨.Credit, 20, "#y", ["#y"]⟩]⟩).total_credits
      = specCredits ⟨"2020-01", [⟨.Credit, 100, "#x", ["#x"]⟩, ⟨.Debit, 50, "#x", ["#x"]⟩,
        ⟨.Credit, 20, "#y", ["#y"]⟩]⟩ ∧
    summarize ⟨Ledger.date ⟨"2020-01", [⟨.Credit, 100, "#x", ["#x"]⟩,
        ⟨.Debit, 50, "#x", ["#x"]⟩, ⟨.Credit, 20, "#y", ["#y"]⟩]⟩,
      [⟨.Credit, 100, "#x", ["#x"]⟩, ⟨.Debit, 50, "#x", ["#x"]⟩, ⟨.Credit, 20, "#y", ["#y"]⟩]⟩
      = ⟨3, 120, 50, 70, "credit"⟩ :=
  ⟨(summarize_totals_net ⟨"2020-01", [⟨.Credit, 100, "#x", ["#x"]⟩, ⟨.Debit, 50, "#x", ["#x"]⟩,
      ⟨.Credit, 20, "#y", ["#y"]⟩]⟩ ⟨.Credit, 100, "#x", ["#x"]⟩ ⟨.Debit, 50, "#x", ["#x"]⟩
      ⟨.Credit, 20, "#y", ["#y"]⟩ (by decide) (by decide) rfl rfl rfl).1,
   (summarize_totals_net ⟨"2020-01", [⟨.Credit, 100, "#x", ["#x"]⟩, ⟨.Debit, 50, "#x", ["#x"]⟩,
      ⟨.Credit, 20, "#y", ["#y"]⟩]⟩ ⟨.Credit, 100, "#x", ["#x"]⟩ ⟨.Debit, 50, "#x", ["#x"]⟩
      ⟨.Credit, 20, "#y", ["#y"]⟩ (by decide) (by decide) rfl rfl rfl).2.2.2.2⟩

/-- C8: `parse_date` is the identity on canonical `"YYYY-MM"` input, for
every current year. -/
theorem canonical_period_identity (y : Nat) (p : String)
    (h : datePattern p.data = true) : parse_date y p = .ok p := by
  unfold parse_date
  simp [h]

/-- Witness for C8 at `"2024-05"`. -/
theorem canonical_period_identity_witness :
    datePattern ("2024-05" : String).data = true ∧
    parse_date 2026 "2024-05" = .ok "2024-05" :=
  ⟨by decide, canonical_period_identity 2026 "2024-05" (by decide)⟩

/-- C9: a non-empty all-whitespace line is not skipped as blank: the skip
pre-check matches only the empty string or lines whose first non-whitespace
character is `#`, so `"   "` reaches the machine and fails with the
unexpected-entry-kind error at offset 0. -/
theorem whitespace_only_line_not_skipped :
    ("   " : String).data ≠ [] ∧
    (("   " : String).data.all isRegexWhitespace) = true ∧
    parse_entry "   " = .error (some "offset 0: unexpected entry kind  ") ∧
    parse_entry "   " ≠ .error none := by
  refine ⟨by decide, by decide, rfl, ?_⟩
  intro hcontra
  rw [show parse_entry "   " = .error (some "offset 0: unexpected entry kind  ") from rfl]
    at hcontra
  exact Option.noConfusion (Except.error.inj hcontra)

/-- C10: a valid kind and amount followed by one terminating whitespace and
nothing else is accepted with an empty comment and no tags, while the same
line without the trailing whitespace fails with the missing-comment error. -/
theorem trailing_whitespace_empty_comment :
    parse_entry "C 1 " = .ok ⟨.Credit, 1, "", []⟩ ∧
    parse_entry "C 1" = .error (some "unexpected EOL; missing comment?") :=
  ⟨rfl, rfl⟩


end Pledger
